import Mathlib

/-!
Shallow embedding of `ospd_openvas/nvticache.py` (NVT Info Cache decoding
layer) together with proofs about its decoding and version-compatibility
behaviour.

Python strings are modelled as Lean `String`; Python `str.split`,
`str.split(sep, 1)`, `str.strip` and `int(...)` are modelled by executable
Lean functions below.  Python `dict` is modelled as an insertion-ordered
association list with insert-or-update semantics.  Python exceptions are
modelled with `Except`.
-/

namespace OspdOpenvas

/-! ### Python string primitives -/

/-- One step list of `str.split`: fuel-indexed splitter on character lists.
The fuel always exceeds the list length, so the `0` branch is unreachable. -/
def splitGo (sep : List Char) : Nat → List Char → List Char → List (List Char)
  | 0, _, acc => [acc.reverse]
  | _ + 1, [], acc => [acc.reverse]
  | fuel + 1, c :: cs, acc =>
    if sep.isPrefixOf (c :: cs) then
      acc.reverse :: splitGo sep fuel (List.drop (sep.length - 1) cs) []
    else
      splitGo sep fuel cs (c :: acc)

/-- Python `s.split(sep)` for a non-empty separator `sep`. -/
def pySplit (s sep : String) : List String :=
  (splitGo sep.toList (s.toList.length + 1) s.toList []).map List.asString

/-- Python `sep.join(parts)`. -/
def joinSep (sep : String) : List String → String
  | [] => ""
  | [x] => x
  | x :: rest => x ++ sep ++ joinSep sep rest

/-- `sep.join` on raw character lists, used to relate `joinSep` to the
splitter. -/
def charJoin (sep : List Char) : List (List Char) → List Char
  | [] => []
  | [x] => x
  | x :: rest => x ++ sep ++ charJoin sep rest

/-- Python `s.split(sep, 1)`: split on the first occurrence only. -/
def pySplit1 (s sep : String) : List String :=
  match pySplit s sep with
  | [] => [s]
  | [x] => [x]
  | x :: rest => [x, joinSep sep rest]

/-- Result of `tag.split('=', 1)` viewed as an optional key/value pair:
`none` when the segment contains no `=`. -/
def splitFirstEq (s : String) : Option (String × String) :=
  match pySplit s "=" with
  | [] => none
  | [_] => none
  | k :: rest => some (k, joinSep "=" rest)

/-- Digit-run parser used by the model of Python `int`: accepts a non-empty
digit sequence with single underscores strictly between digits. -/
def pyDigitsGo : List Char → Nat → Bool → Option Nat
  | [], acc, prevDigit => if prevDigit then some acc else none
  | c :: cs, acc, prevDigit =>
    if c.isDigit then pyDigitsGo cs (acc * 10 + (c.toNat - 48)) true
    else if c == '_' && prevDigit then pyDigitsGo cs acc false
    else none

/-- Python `s.strip()`: remove surrounding whitespace. -/
def pyStrip (s : String) : String :=
  (((s.toList.dropWhile Char.isWhitespace).reverse.dropWhile
      Char.isWhitespace).reverse).asString

/-- Python `int(s)` for string arguments: strips surrounding whitespace,
allows an optional sign, then a digit run; `none` models `ValueError`. -/
def pyInt (s : String) : Option Int :=
  let l := ((s.toList.dropWhile Char.isWhitespace).reverse.dropWhile
      Char.isWhitespace).reverse
  match l with
  | '+' :: rest => (pyDigitsGo rest 0 false).map Int.ofNat
  | '-' :: rest => (pyDigitsGo rest 0 false).map (fun n => -(n : Int))
  | rest => (pyDigitsGo rest 0 false).map Int.ofNat

/-! ### Python `dict` as an insertion-ordered association list -/

/-- Insert-or-update: `d[k] = v` on a Python dict.  An existing key keeps its
position and gets the new value; a new key is appended. -/
def upsert {α : Type} (d : List (String × α)) (k : String) (v : α) :
    List (String × α) :=
  if (d.find? (fun p => p.1 == k)).isSome then
    d.map (fun p => if p.1 == k then (k, v) else p)
  else
    d ++ [(k, v)]

/-- Python `d[k]` lookup returning `none` when absent. -/
def lookupD {α : Type} (d : List (String × α)) (k : String) : Option α :=
  (d.find? (fun p => p.1 == k)).map (fun p => p.2)

/-- Python `d.update(d2)`: upsert every pair of `d2` in order. -/
def dictUpdate {α : Type} (d d2 : List (String × α)) : List (String × α) :=
  d2.foldl (fun a p => upsert a p.1 p.2) d

/-- Build a dict from a list of pairs by repeated upsert (Python
`dict` built by successive assignments). -/
def buildDict {α : Type} (l : List (String × α)) : List (String × α) :=
  dictUpdate [] l

/-! ### The NVTICache model (from `ospd_openvas/nvticache.py`)

The store reads (`get_single_item`, `get_list_item`, `db_find`, the version
probe) are external collaborators; each model function takes their results
as parameters: `Option String` for a single-item read (`none` = Python
`None`), `Option (List String)` for a list read (`none` models a non-list
reply, which the source guards with `isinstance`). -/

/-- Python exceptions that the modelled code can raise. -/
inductive PyErr where
  | valueError
  | indexError
deriving DecidableEq, Repr

/-- `l[i]` on a Python list: `IndexError` when out of range (negative
indices never occur in the modelled code). -/
def pyGet (l : List String) (i : Nat) : Except PyErr String :=
  match l.get? i with
  | some v => Except.ok v
  | none => Except.error PyErr.indexError

/-- `_parse_metadata_tags(tags_str, oid)`.  Returns the tag dict together
with the list of `(malformed-segment, oid)` diagnostics emitted through
`logger.error` (the source logs and `continue`s on a segment with no `=`). -/
def _parse_metadata_tags (tags_str oid : String) :
    List (String × String) × List (String × String) :=
  (pySplit tags_str "|").foldl
    (fun acc tag =>
      match splitFirstEq tag with
      | none => (acc.1, acc.2 ++ [(tag, oid)])
      | some kv => (upsert acc.1 kv.1 kv.2, acc.2))
    ([], [])

/-- One entry of the parameter map built by `get_nvt_params`. -/
structure VtParam where
  id : String
  type : String
  name : String
  description : String
  default : String
deriving DecidableEq, Repr

/-- The loop body of `get_nvt_params`: decode one `|||`-separated
preference record into its key and descriptor.  Field access order follows
the source: `elem[0]`, `elem[2]`, `elem[1].strip()`, then `elem[3]` only
when `elem[2]` is non-empty. -/
def prefDesc (nvt_pref : String) : Except PyErr (String × VtParam) := do
  let elem := pySplit nvt_pref "|||"
  let pid ← pyGet elem 0
  let ty ← pyGet elem 2
  let nm ← pyGet elem 1
  let df ← if ty ≠ "" then pyGet elem 3 else pure ""
  pure (pid, ⟨pid, ty, pyStrip nm, "Description", df⟩)

/-- The synthesized script-timeout descriptor inserted under key `"0"`. -/
def timeoutParam (timeout : String) : VtParam :=
  ⟨"0", "entry", "timeout", "Script Timeout", timeout⟩

/-- One iteration of the preference loop of `get_nvt_params`: decode the
record and store the descriptor under its id. -/
def applyPref (d : List (String × VtParam)) (p : String) :
    Except PyErr (List (String × VtParam)) := do
  let kv ← prefDesc p
  pure (upsert d kv.1 kv.2)

/-- `get_nvt_params(oid)` given the results of the two store reads:
`prefs` from `get_nvt_prefs` and `timeout` from `get_nvt_timeout`. -/
def get_nvt_params (prefs : Option (List String)) (timeout : Option String) :
    Except PyErr (Option (List (String × VtParam))) :=
  match timeout with
  | none => Except.ok none
  | some t =>
    match pyInt t with
    | none => Except.error PyErr.valueError
    | some n =>
      let init : List (String × VtParam) :=
        if 0 < n then [("0", timeoutParam t)] else []
      do
        let m ← (prefs.getD []).foldlM applyPref init
        pure (some m)

/-- The positional field names of a VT record (`subelem` in the source). -/
def subelem : List String :=
  ["filename", "required_keys", "mandatory_keys", "excluded_keys",
   "required_udp_ports", "required_ports", "dependencies", "tag",
   "cve", "bid", "xref", "category", "timeout", "family", "name"]

/-- The loop body of `get_nvt_metadata`: process one `(child, res)` pair of
the `zip` of `subelem` with the ranged read. -/
def metaStep (oid : String) (custom : List (String × String))
    (p : String × String) : List (String × String) :=
  if p.1 ∉ ["cve", "bid", "xref", "tag"] ∧ p.2 ≠ "" then
    upsert custom p.1 p.2
  else if p.1 = "tag" then
    dictUpdate custom (_parse_metadata_tags p.2 oid).1
  else
    custom

/-- `get_nvt_metadata(oid)` given the result of the ranged read for
positions `NVT_FILENAME_POS .. NVT_NAME_POS` (`none` = non-list reply). -/
def get_nvt_metadata (oid : String) (resp : Option (List String)) :
    Option (List (String × String)) :=
  match resp with
  | none => none
  | some r =>
    if r.length = 0 then none
    else some ((subelem.zip r).foldl (metaStep oid) [])

/-- `get_nvt_refs(oid)` given the result of the 3-position ranged read for
`NVT_CVES_POS .. NVT_XREFS_POS`. -/
def get_nvt_refs (resp : Option (List String)) :
    Option (List (String × List String)) :=
  match resp with
  | none => none
  | some r =>
    if r.length = 0 then none
    else some ((["cve", "bid", "xref"].zip r).foldl
      (fun refs p => upsert refs p.1 (pySplit p.2 ", ")) [])

/-- `get_nvt_tag(ctx, oid)` given the tag string read from the store: the
source builds `dict([item.split('=', 1) for item in tags])`, which raises
`ValueError` as soon as some item's split has length 1. -/
def get_nvt_tag (tag : String) :
    Except PyErr (List (String × String)) :=
  let pairs := (pySplit tag "|").map (fun item => pySplit1 item "=")
  if pairs.all (fun p => p.length == 2) then
    Except.ok (pairs.foldl
      (fun d p =>
        match p with
        | [k, v] => upsert d k v
        | _ => d) [])
  else
    Except.error PyErr.valueError

/-! ### Cache locator and version-compatibility guard -/

/-- The fatal configuration error raised by `_set_nvti_cache_name`. -/
inductive OspdOpenvasError where
  | err
deriving DecidableEq, Repr

def SUPPORTED_NVTICACHE_VERSIONS : List String := ["20.4"]

/-- Parse a dotted numeric version string into its release components;
`none` when some component is not a plain digit run (such strings parse as
legacy versions, which compare below every release version, so the guard
rejects them). -/
def parseVersionNums (s : String) : Option (List Nat) :=
  (pySplit s ".").mapM (fun p =>
    if p.toList ≠ [] ∧ p.toList.all Char.isDigit then
      some (p.toList.foldl (fun acc c => acc * 10 + (c.toNat - 48)) 0)
    else none)

/-- Release-tuple comparison as performed by `pkg_resources.parse_version`:
componentwise, with the shorter tuple padded by zeros. -/
def verCmp : List Nat → List Nat → Ordering
  | [], ys => if ys.all (fun y => y == 0) then Ordering.eq else Ordering.lt
  | x :: xs, [] =>
    if x == 0 && xs.all (fun y => y == 0) then Ordering.eq else Ordering.gt
  | x :: xs, y :: ys =>
    if x < y then Ordering.lt
    else if y < x then Ordering.gt
    else verCmp xs ys

/-- `a >= b` under release-tuple comparison. -/
def verGe (a b : List Nat) : Bool :=
  match verCmp a b with
  | Ordering.lt => false
  | _ => true

/-- The major component: `base_version.split('.')[0]` of a parsed version. -/
def majorOf (v : List Nat) : Nat := v.headD 0

/-- The guard of the supported-versions loop in `_set_nvti_cache_name`:
`installed_lib >= supported_lib and installed major == supported major`. -/
def supportedMatch (installed_lib : List Nat) (supported_item : String) :
    Bool :=
  match parseVersionNums supported_item with
  | none => false
  | some supported_lib =>
    verGe installed_lib supported_lib
      && majorOf installed_lib == majorOf supported_lib

/-- `_set_nvti_cache_name()` given the result of the version probe
(`none` models a `CalledProcessError`/`PermissionError` from
`subprocess.check_output`).  On success returns the derived cache name. -/
def _set_nvti_cache_name (probe : Option String) :
    Except OspdOpenvasError String :=
  match probe with
  | none => Except.error OspdOpenvasError.err
  | some version_string =>
    match parseVersionNums version_string with
    | none => Except.error OspdOpenvasError.err
    | some installed_lib =>
      if SUPPORTED_NVTICACHE_VERSIONS.any (supportedMatch installed_lib)
      then Except.ok ("nvticache" ++ version_string)
      else Except.error OspdOpenvasError.err

/-- The compatibility rule as the spec words it: some supported entry has
the same major component as the installed version, and the installed
version is greater or equal under release-tuple comparison. -/
def specCompatible (inst : List Nat) : Prop :=
  ∃ s ∈ SUPPORTED_NVTICACHE_VERSIONS, ∃ sup,
    parseVersionNums s = some sup ∧ majorOf inst = majorOf sup ∧
    verGe inst sup = true

/-- Result of a call to `_get_nvti_cache_name`: the post-state of the
`_nvti_cache_name` field, the returned name (or the propagated error), and
how many times the version probe ran during the call. -/
structure NameRes where
  st : Option String
  result : Except OspdOpenvasError String
  probes : Nat
deriving Repr

/-- `_get_nvti_cache_name()` acting on the `_nvti_cache_name` field.  The
source re-probes when the field is falsy (`None` or the empty string). -/
def _get_nvti_cache_name (probe : Option String) (st : Option String) :
    NameRes :=
  if st.getD "" = "" then
    match _set_nvti_cache_name probe with
    | Except.ok n => ⟨some n, Except.ok n, 1⟩
    | Except.error e => ⟨st, Except.error e, 1⟩
  else
    ⟨st, Except.ok (st.getD ""), 0⟩

/-- Result of a call to `get_redis_context`: post-state, returned handle or
propagated error, probe count and number of `db_find` invocations. -/
structure CtxRes where
  st : Option String
  result : Except OspdOpenvasError String
  probes : Nat
  dbFinds : Nat
deriving Repr

/-- `get_redis_context()`: resolves the cache name, then always calls
`db_find` on it (`dbF` models `self._openvas_db.db_find`). -/
def get_redis_context (dbF : String → String) (probe : Option String)
    (st : Option String) : CtxRes :=
  let r := _get_nvti_cache_name probe st
  match r.result with
  | Except.ok n => ⟨r.st, Except.ok (dbF n), r.probes, 1⟩
  | Except.error e => ⟨r.st, Except.error e, r.probes, 0⟩

-- quick sanity checks of the primitives (kernel-evaluable)
/-! ### Definitions used by the specification-side statements -/

/-- The value attached to the last pair of `l` whose key is `k`. -/
def lastVal {α : Type} (l : List (String × α)) (k : String) : Option α :=
  (l.reverse.find? (fun p => p.1 == k)).map (fun p => p.2)

/-- Keys of a dict, in order. -/
def keysOf {α : Type} (l : List (String × α)) : List String := l.map Prod.fst

/-- The tag dictionary described by the spec: exactly the pairs of the
well-formed segments, each split on its first `=`. -/
def specTagDict (tags_str : String) : List (String × String) :=
  buildDict ((pySplit tags_str "|").filterMap splitFirstEq)

/-- The diagnostics described by the spec: one event per segment without
`=`, identifying the segment and the owning OID. -/
def specTagDiagnostics (tags_str oid : String) : List (String × String) :=
  ((pySplit tags_str "|").filter
    (fun t => (splitFirstEq t).isNone)).map (fun t => (t, oid))

/-- The dict entries contributed by one `(child, res)` pair of the metadata
zip: the pair itself for a non-special non-empty field, the parsed tag dict
for the `tag` field, nothing otherwise. -/
def entryOf (oid : String) (p : String × String) : List (String × String) :=
  if p.1 ∉ ["cve", "bid", "xref", "tag"] ∧ p.2 ≠ "" then [p]
  else if p.1 = "tag" then (_parse_metadata_tags p.2 oid).1
  else []


example : pySplit "a|b||c" "|" = ["a", "b", "", "c"] := by decide
example : pySplit "" "|" = [""] := by decide
example : pySplit "a||||b" "|||" = ["a", "|b"] := by decide
example : pySplit1 "a=b=c" "=" = ["a", "b=c"] := by decide
example : splitFirstEq "a=b=c" = some ("a", "b=c") := by decide
example : splitFirstEq "abc" = none := by decide
example : pyInt "10" = some 10 := by decide
example : pyInt "" = none := by decide
example : pyInt " -5 " = some (-5) := by decide
example : pyInt "1_0" = some 10 := by decide
example : pyInt "_1" = none := by decide
example : upsert [("a", 1), ("b", 2)] "a" 3 = [("a", 3), ("b", 2)] := by decide
example : lookupD [("a", 1)] "b" = none := by decide

/-! ### Characterization of the splitter on a single-character separator -/

theorem splitGo_ne_nil (sep : List Char) :
    ∀ (fuel : Nat) (l acc : List Char), splitGo sep fuel l acc ≠ [] := by
  intro fuel
  induction fuel with
  | zero => intro l acc; simp [splitGo]
  | succ f ih =>
    intro l acc
    cases l with
    | nil => simp [splitGo]
    | cons c cs =>
      unfold splitGo
      by_cases h : sep.isPrefixOf (c :: cs)
      · simp [h]
      · simp only [h, Bool.false_eq_true, if_false]
        exact ih cs (c :: acc)

theorem splitGo_single_eq (c : Char) (fuel : Nat) (cs acc : List Char) :
    splitGo [c] (fuel + 1) (c :: cs) acc =
      acc.reverse :: splitGo [c] fuel cs [] := by
  have h : [c].isPrefixOf (c :: cs) = true := by
    simp [List.isPrefixOf]
  conv_lhs => rw [splitGo]
  rw [if_pos h]
  simp

theorem splitGo_single_ne (c d : Char) (h : d ≠ c) (fuel : Nat)
    (cs acc : List Char) :
    splitGo [c] (fuel + 1) (d :: cs) acc = splitGo [c] fuel cs (d :: acc) := by
  have hp : ¬([c].isPrefixOf (d :: cs) = true) := by
    simp [List.isPrefixOf, Ne.symm h]
  conv_lhs => rw [splitGo]
  rw [if_neg hp]

theorem splitGo_single_fuel (c : Char) :
    ∀ (l acc : List Char) (f1 f2 : Nat), l.length ≤ f1 → l.length ≤ f2 →
      splitGo [c] f1 l acc = splitGo [c] f2 l acc := by
  intro l
  induction l with
  | nil =>
    intro acc f1 f2 _ _
    cases f1 <;> cases f2 <;> simp [splitGo]
  | cons d ds ih =>
    intro acc f1 f2 h1 h2
    cases f1 with
    | zero => simp at h1
    | succ a =>
      cases f2 with
      | zero => simp at h2
      | succ b =>
        simp only [List.length_cons, Nat.succ_le_succ_iff] at h1 h2
        by_cases hd : d = c
        · subst hd
          rw [splitGo_single_eq, splitGo_single_eq, ih [] a b h1 h2]
        · rw [splitGo_single_ne c d hd, splitGo_single_ne c d hd,
            ih (d :: acc) a b h1 h2]

theorem splitGo_single_no_sep (c : Char) :
    ∀ (l acc : List Char) (fuel : Nat), l.length ≤ fuel →
      l.contains c = false → splitGo [c] fuel l acc = [acc.reverse ++ l] := by
  intro l
  induction l with
  | nil =>
    intro acc fuel _ _
    cases fuel <;> simp [splitGo]
  | cons d ds ih =>
    intro acc fuel h1 h2
    simp only [List.contains_cons, Bool.or_eq_false_iff, beq_eq_false_iff_ne]
      at h2
    cases fuel with
    | zero => simp at h1
    | succ f =>
      simp only [List.length_cons, Nat.succ_le_succ_iff] at h1
      rw [splitGo_single_ne c d (Ne.symm h2.1), ih (d :: acc) f h1 h2.2]
      simp

theorem splitGo_single_first (c : Char) :
    ∀ (kl vl acc : List Char) (fuel : Nat),
      (kl ++ c :: vl).length ≤ fuel → kl.contains c = false →
      splitGo [c] fuel (kl ++ c :: vl) acc =
        (acc.reverse ++ kl) :: splitGo [c] (vl.length + 1) vl [] := by
  intro kl
  induction kl with
  | nil =>
    intro vl acc fuel h1 _
    cases fuel with
    | zero => simp at h1
    | succ f =>
      simp only [List.nil_append, List.length_cons, Nat.succ_le_succ_iff]
        at h1
      rw [List.nil_append, splitGo_single_eq,
        splitGo_single_fuel c vl [] f (vl.length + 1) h1 (by omega)]
      simp
  | cons d ds ih =>
    intro vl acc fuel h1 h2
    simp only [List.contains_cons, Bool.or_eq_false_iff, beq_eq_false_iff_ne]
      at h2
    cases fuel with
    | zero => simp at h1
    | succ f =>
      simp only [List.cons_append, List.length_cons, Nat.succ_le_succ_iff]
        at h1
      rw [List.cons_append, splitGo_single_ne c d (Ne.symm h2.1),
        ih vl (d :: acc) f h1 h2.2]
      simp

theorem charJoin_splitGo (c : Char) :
    ∀ (l acc : List Char) (fuel : Nat), l.length ≤ fuel →
      charJoin [c] (splitGo [c] fuel l acc) = acc.reverse ++ l := by
  intro l
  induction l with
  | nil =>
    intro acc fuel _
    cases fuel <;> simp [splitGo, charJoin]
  | cons d ds ih =>
    intro acc fuel h1
    cases fuel with
    | zero => simp at h1
    | succ f =>
      simp only [List.length_cons, Nat.succ_le_succ_iff] at h1
      by_cases hd : d = c
      · subst hd
        rw [splitGo_single_eq]
        cases hrest : splitGo [d] f ds [] with
        | nil => exact absurd hrest (splitGo_ne_nil [d] f ds [])
        | cons y ys =>
          have hjoin : charJoin [d] (acc.reverse :: y :: ys) =
              acc.reverse ++ [d] ++ charJoin [d] (y :: ys) := rfl
          rw [hjoin, ← hrest, ih [] f h1]
          simp
      · rw [splitGo_single_ne c d hd, ih (d :: acc) f h1]
        simp

theorem asString_toList (s : String) : s.toList.asString = s := rfl

theorem asString_append (l1 l2 : List Char) :
    (l1 ++ l2).asString = l1.asString ++ l2.asString := rfl

theorem joinSep_map_asString (sep : String) :
    ∀ (lls : List (List Char)),
      joinSep sep (lls.map List.asString) = (charJoin sep.toList lls).asString := by
  intro lls
  induction lls with
  | nil => rfl
  | cons x rest ih =>
    cases rest with
    | nil => rfl
    | cons y ys =>
      have h1 : joinSep sep (List.asString x :: List.asString y ::
          ys.map List.asString) = List.asString x ++ sep ++
          joinSep sep (List.asString y :: ys.map List.asString) := rfl
      have h2 : charJoin sep.toList (x :: y :: ys) =
          x ++ sep.toList ++ charJoin sep.toList (y :: ys) := rfl
      simp only [List.map_cons] at ih ⊢
      rw [h1, ih, h2, asString_append, asString_append, asString_toList]

/-- Round trip for the single-character separator `=`: re-joining the split
parts recovers the original string. -/
theorem joinSep_pySplit_eq (v : String) : joinSep "=" (pySplit v "=") = v := by
  unfold pySplit
  rw [joinSep_map_asString]
  have hsep : ("=" : String).toList = ['='] := rfl
  rw [hsep, charJoin_splitGo '=' v.toList [] (v.toList.length + 1) (by omega)]
  simp only [List.reverse_nil, List.nil_append]
  rfl

theorem pySplit_eq_no_sep (s : String) (h : s.toList.contains '=' = false) :
    pySplit s "=" = [s] := by
  unfold pySplit
  have hsep : ("=" : String).toList = ['='] := rfl
  rw [hsep, splitGo_single_no_sep '=' s.toList [] (s.toList.length + 1)
    (by omega) h]
  simp only [List.reverse_nil, List.nil_append, List.map_cons, List.map_nil]
  rfl

theorem exists_first_sep (c : Char) :
    ∀ (l : List Char), l.contains c = true →
      ∃ kl vl, l = kl ++ c :: vl ∧ kl.contains c = false := by
  intro l
  induction l with
  | nil => intro h; simp at h
  | cons d ds ih =>
    intro h
    by_cases hd : d = c
    · exact ⟨[], ds, by simp [hd], by simp⟩
    · have h' : ds.contains c = true := by
        simp only [List.contains_cons, Bool.or_eq_true, beq_iff_eq] at h
        rcases h with h | h
        · exact absurd h.symm hd
        · exact h
      obtain ⟨kl, vl, h1, h2⟩ := ih h'
      refine ⟨d :: kl, vl, by simp [h1], ?_⟩
      have hd2 : (c == d) = false := by
        simp [beq_eq_false_iff_ne, Ne.symm hd]
      simp only [List.contains_cons, Bool.or_eq_false_iff]
      exact ⟨hd2, h2⟩

theorem pySplit_eq_first (k v : String) (hk : k.toList.contains '=' = false) :
    pySplit (k ++ "=" ++ v) "=" = k :: pySplit v "=" := by
  unfold pySplit
  have hsep : ("=" : String).toList = ['='] := rfl
  have hdec : (k ++ "=" ++ v).toList = k.toList ++ '=' :: v.toList := by
    show (k ++ "=" ++ v).data = k.data ++ '=' :: v.data
    rw [String.data_append, String.data_append]
    simp [show ("=" : String).data = ['='] from rfl]
  rw [hsep, hdec]
  rw [splitGo_single_first '=' k.toList v.toList [] _ (by omega) hk]
  simp only [List.reverse_nil, List.nil_append, List.map_cons]
  rfl

/-- `splitFirstEq` splits exactly at the first `=`: the key never contains
`=`, and everything after the first `=` is preserved whole in the value. -/
theorem splitFirstEq_first (k v : String) (hk : k.toList.contains '=' = false) :
    splitFirstEq (k ++ "=" ++ v) = some (k, v) := by
  unfold splitFirstEq
  rw [pySplit_eq_first k v hk]
  cases hv : pySplit v "=" with
  | nil => exact absurd hv (by
      unfold pySplit
      simp only [ne_eq, List.map_eq_nil_iff]
      exact splitGo_ne_nil _ _ _ _)
  | cons y ys =>
    have : joinSep "=" (y :: ys) = v := by rw [← hv, joinSep_pySplit_eq]
    simp [this]

/-- A segment yields `none` exactly when it contains no `=` at all. -/
theorem splitFirstEq_eq_none_iff (s : String) :
    splitFirstEq s = none ↔ s.toList.contains '=' = false := by
  constructor
  · intro h
    by_contra hc
    have hc' : s.toList.contains '=' = true := by
      cases h2 : s.toList.contains '=' with
      | true => rfl
      | false => exact absurd h2 hc
    obtain ⟨kl, vl, h1, h2⟩ := exists_first_sep '=' s.toList hc'
    have hs : s = kl.asString ++ "=" ++ vl.asString := by
      have : s.toList = (kl.asString ++ "=" ++ vl.asString).toList := by
        show s.data = (kl.asString ++ "=" ++ vl.asString).data
        rw [String.data_append, String.data_append]
        simpa [show (List.asString kl).data = kl from rfl,
          show (List.asString vl).data = vl from rfl,
          show ("=" : String).data = ['='] from rfl] using h1
      have heq := congrArg List.asString this
      rwa [asString_toList, asString_toList] at heq
    rw [hs, splitFirstEq_first kl.asString vl.asString
      (by simpa [show (List.asString kl).toList = kl from rfl] using h2)] at h
    cases h
  · intro h
    unfold splitFirstEq
    rw [pySplit_eq_no_sep s h]

/-! ### Lemmas about the ordered-dictionary model -/

theorem find?_map_replace_ne {α : Type} (d : List (String × α)) (k k' : String)
    (v : α) (h : k' ≠ k) :
    ((d.map (fun p => if p.1 == k then (k, v) else p)).find?
        (fun p => p.1 == k')) =
      d.find? (fun p => p.1 == k') := by
  induction d with
  | nil => rfl
  | cons p ps ih =>
    rw [List.map_cons]
    by_cases hp : p.1 = k
    · have h1 : (if p.1 == k then (k, v) else p) = (k, v) := by simp [hp]
      rw [h1, List.find?_cons_of_neg, List.find?_cons_of_neg]
      · exact ih
      · simp [hp, Ne.symm h]
      · simp [Ne.symm h]
    · have h1 : (if p.1 == k then (k, v) else p) = p := by simp [hp]
      rw [h1]
      by_cases hb : p.1 = k'
      · rw [List.find?_cons_of_pos, List.find?_cons_of_pos] <;> simp [hb]
      · rw [List.find?_cons_of_neg, List.find?_cons_of_neg]
        · exact ih
        · simp [hb]
        · simp [hb]

theorem find?_map_replace_self {α : Type} (d : List (String × α)) (k : String)
    (v : α) (h : (d.find? (fun p => p.1 == k)).isSome) :
    ((d.map (fun p => if p.1 == k then (k, v) else p)).find?
        (fun p => p.1 == k)) = some (k, v) := by
  induction d with
  | nil => simp [List.find?] at h
  | cons p ps ih =>
    rw [List.map_cons]
    by_cases hp : p.1 = k
    · have h1 : (if p.1 == k then (k, v) else p) = (k, v) := by simp [hp]
      rw [h1, List.find?_cons_of_pos]
      simp
    · have h1 : (if p.1 == k then (k, v) else p) = p := by simp [hp]
      rw [h1, List.find?_cons_of_neg _ (by simp [hp])]
      rw [List.find?_cons_of_neg _ (by simp [hp])] at h
      exact ih h

/-- Lookup after insert-or-update: the inserted key reads back the new
value, every other key is untouched. -/
theorem lookupD_upsert {α : Type} (d : List (String × α)) (k k' : String)
    (v : α) :
    lookupD (upsert d k v) k' = if k' = k then some v else lookupD d k' := by
  unfold upsert lookupD
  by_cases hs : (d.find? (fun p => p.1 == k)).isSome
  · simp only [hs, if_true]
    by_cases hk : k' = k
    · subst hk
      rw [find?_map_replace_self d k' v hs]
      simp
    · rw [find?_map_replace_ne d k k' v hk]
      simp [hk]
  · simp only [hs, Bool.false_eq_true, if_false]
    rw [List.find?_append]
    have hnone : d.find? (fun p => p.1 == k) = none := by
      cases hfind : d.find? (fun p => p.1 == k) with
      | none => rfl
      | some q => rw [hfind] at hs; simp at hs
    by_cases hk : k' = k
    · subst hk
      simp [hnone, List.find?]
    · have : (k == k') = false := by simp [beq_eq_false_iff_ne, Ne.symm hk]
      simp [List.find?, this, hk]

theorem lastVal_nil {α : Type} (k : String) :
    lastVal ([] : List (String × α)) k = none := rfl

theorem lastVal_append {α : Type} (l1 l2 : List (String × α)) (k : String) :
    lastVal (l1 ++ l2) k = Option.or (lastVal l2 k) (lastVal l1 k) := by
  unfold lastVal
  rw [List.reverse_append, List.find?_append]
  cases l2.reverse.find? (fun p => p.1 == k) <;> simp

theorem lastVal_singleton {α : Type} (a : String) (v : α) (k : String) :
    lastVal [(a, v)] k = if a = k then some v else none := by
  unfold lastVal
  by_cases h : a = k
  · rw [show ([(a, v)] : List (String × α)).reverse = [(a, v)] from rfl,
      List.find?_cons_of_pos _ (by simp [h])]
    simp [h]
  · rw [show ([(a, v)] : List (String × α)).reverse = [(a, v)] from rfl,
      List.find?_cons_of_neg _ (by simp [h])]
    simp [h]

theorem lastVal_cons {α : Type} (x : String × α) (l : List (String × α))
    (k : String) :
    lastVal (x :: l) k = Option.or (lastVal l k) (lastVal [x] k) := by
  have h2 : x :: l = [x] ++ l := rfl
  rw [h2, lastVal_append]

theorem lastVal_ite {α : Type} (c : Prop) [Decidable c]
    (l : List (String × α)) (k : String) :
    lastVal (if c then l else []) k = if c then lastVal l k else none := by
  by_cases h : c <;> simp [h, lastVal_nil]

theorem lastVal_eq_none {α : Type} (l : List (String × α)) (k : String)
    (h : ∀ q ∈ l, q.1 ≠ k) : lastVal l k = none := by
  unfold lastVal
  have : l.reverse.find? (fun p => p.1 == k) = none := by
    rw [List.find?_eq_none]
    intro q hq
    simp [beq_eq_false_iff_ne, h q (List.mem_reverse.mp hq)]
  rw [this]
  rfl

/-- Folding upserts over `l` starting from `d`: a key reads back the last
value inserted for it in `l`, or falls back to its value in `d`. -/
theorem lookupD_dictUpdate {α : Type} (l d : List (String × α)) (k : String) :
    lookupD (dictUpdate d l) k = Option.or (lastVal l k) (lookupD d k) := by
  induction l generalizing d with
  | nil => simp [dictUpdate, lastVal_nil]
  | cons p rest ih =>
    obtain ⟨a, b⟩ := p
    have hcons : dictUpdate d ((a, b) :: rest) =
        dictUpdate (upsert d a b) rest := rfl
    rw [hcons, ih]
    have hl : lastVal ((a, b) :: rest) k =
        Option.or (lastVal rest k) (lastVal [(a, b)] k) := by
      have h2 : (a, b) :: rest = [(a, b)] ++ rest := rfl
      rw [h2, lastVal_append]
    rw [hl, Option.or_assoc]
    congr 1
    rw [lookupD_upsert]
    by_cases hk : k = a
    · simp [lastVal_singleton, hk]
    · simp [lastVal_singleton, hk, Ne.symm hk]

theorem lookupD_buildDict {α : Type} (l : List (String × α)) (k : String) :
    lookupD (buildDict l) k = lastVal l k := by
  unfold buildDict
  rw [lookupD_dictUpdate]
  simp [lookupD, List.find?]

theorem keysOf_upsert_of_found {α : Type} (d : List (String × α))
    (k : String) (v : α) (h : (d.find? (fun p => p.1 == k)).isSome) :
    keysOf (upsert d k v) = keysOf d := by
  unfold upsert keysOf
  simp only [h, if_true, List.map_map]
  apply List.map_congr_left
  intro p _
  by_cases hp : p.1 = k
  · simp [hp]
  · simp [beq_eq_false_iff_ne, hp]

theorem keysOf_upsert_nodup {α : Type} (d : List (String × α)) (k : String)
    (v : α) (h : (keysOf d).Nodup) : (keysOf (upsert d k v)).Nodup := by
  by_cases hs : (d.find? (fun p => p.1 == k)).isSome
  · rw [keysOf_upsert_of_found d k v hs]
    exact h
  · have hnone : d.find? (fun p => p.1 == k) = none := by
      cases hfind : d.find? (fun p => p.1 == k) with
      | none => rfl
      | some q => rw [hfind] at hs; simp at hs
    have hkmem : k ∉ keysOf d := by
      intro hmem
      rcases List.mem_map.mp hmem with ⟨p, hp, hpk⟩
      have := (List.find?_eq_none.mp hnone) p hp
      simp [hpk] at this
    unfold upsert keysOf
    simp only [hs, Bool.false_eq_true, if_false, List.map_append]
    rw [List.nodup_append]
    refine ⟨h, by simp, ?_⟩
    intro a ha hb
    simp only [List.map_cons, List.map_nil, List.mem_singleton] at hb
    exact hkmem (hb ▸ ha)

theorem keysOf_dictUpdate_nodup {α : Type} (l d : List (String × α))
    (h : (keysOf d).Nodup) : (keysOf (dictUpdate d l)).Nodup := by
  induction l generalizing d with
  | nil => exact h
  | cons p rest ih => exact ih _ (keysOf_upsert_nodup d p.1 p.2 h)

theorem keysOf_buildDict_nodup {α : Type} (l : List (String × α)) :
    (keysOf (buildDict l)).Nodup := by
  unfold buildDict
  exact keysOf_dictUpdate_nodup l [] (by simp [keysOf])

/-- On a dict with distinct keys the last occurrence is the only one, so
`lastVal` agrees with `lookupD`. -/
theorem lastVal_eq_lookupD {α : Type} (l : List (String × α))
    (h : (keysOf l).Nodup) (k : String) : lastVal l k = lookupD l k := by
  induction l with
  | nil => rfl
  | cons p rest ih =>
    obtain ⟨a, b⟩ := p
    rw [keysOf, List.map_cons, List.nodup_cons] at h
    obtain ⟨hp, hrest⟩ := h
    rw [lastVal_cons, lastVal_singleton]
    by_cases hk : a = k
    · have hnone : lastVal rest k = none := by
        apply lastVal_eq_none
        intro q hq hqk
        have hqa : q.1 = a := hqk.trans hk.symm
        have hm := List.mem_map_of_mem Prod.fst hq
        rw [hqa] at hm
        exact hp hm
      rw [hnone, Option.none_or]
      have hb : ((a, b).1 == k) = true := by simp [hk]
      unfold lookupD
      rw [List.find?_cons_of_pos (p := fun (q : String × α) => q.1 == k) _ hb]
      simp [hk]
    · have hb : ¬((a, b).1 == k) = true := by simp [hk]
      simp only [hk, if_false]
      rw [Option.or_none, ih hrest]
      unfold lookupD
      rw [List.find?_cons_of_neg (p := fun (q : String × α) => q.1 == k) _ hb]

/-- A successful lookup exhibits a member pair. -/
theorem mem_of_lookupD_some {α : Type} (l : List (String × α)) (k : String)
    (v : α) (h : lookupD l k = some v) : (k, v) ∈ l := by
  unfold lookupD at h
  cases hf : l.find? (fun p => p.1 == k) with
  | none => rw [hf] at h; simp at h
  | some q =>
    rw [hf] at h
    have hq := List.find?_some hf
    have hqk : q.1 = k := by simpa using hq
    have hqv : q.2 = v := by simpa using h
    have hmem := List.mem_of_find?_eq_some hf
    have hqe : q = (k, v) := by
      obtain ⟨qa, qb⟩ := q
      simp_all
    exact hqe ▸ hmem

/-! ### Refinement of the tag grammar -/

theorem parse_tags_go (oid : String) (segs : List String)
    (d0 diag0 : List (String × String)) :
    (segs.foldl
      (fun acc tag =>
        match splitFirstEq tag with
        | none => (acc.1, acc.2 ++ [(tag, oid)])
        | some kv => (upsert acc.1 kv.1 kv.2, acc.2)) (d0, diag0)) =
    (dictUpdate d0 (segs.filterMap splitFirstEq),
      diag0 ++ (segs.filter
        (fun t => (splitFirstEq t).isNone)).map (fun t => (t, oid))) := by
  induction segs generalizing d0 diag0 with
  | nil => simp [dictUpdate]
  | cons t rest ih =>
    cases hs : splitFirstEq t with
    | none =>
      rw [List.foldl_cons]
      simp only [hs]
      rw [ih, List.filterMap_cons, List.filter_cons]
      simp [hs, List.append_assoc]
    | some kv =>
      rw [List.foldl_cons]
      simp only [hs]
      rw [ih, List.filterMap_cons, List.filter_cons]
      simp only [hs, Option.isNone_some, Bool.false_eq_true, if_false]
      rfl

/-- `_parse_metadata_tags` computes exactly the spec's dict and the spec's
diagnostics in one pass. -/
theorem parse_tags_eq_spec (tags_str oid : String) :
    _parse_metadata_tags tags_str oid =
      (specTagDict tags_str, specTagDiagnostics tags_str oid) := by
  unfold _parse_metadata_tags specTagDict specTagDiagnostics buildDict
  rw [parse_tags_go]
  simp

/-! ### Lemmas about the preference fold of `get_nvt_params` -/

theorem except_bind_ok {ε α β : Type} (a : α) (f : α → Except ε β) :
    (Except.ok a >>= f) = f a := rfl

theorem except_bind_error {ε α β : Type} (e : ε) (f : α → Except ε β) :
    ((Except.error e : Except ε α) >>= f) = Except.error e := rfl

/-- A key never produced by the decoded records of the list keeps, after the
preference fold succeeds, the value it had in the initial dict. -/
theorem foldlM_applyPref_lookup (k : String) (prefs : List String) :
    ∀ d m, prefs.foldlM applyPref d = Except.ok m →
      (∀ e ∈ prefs, ∀ kv, prefDesc e = Except.ok kv → kv.1 ≠ k) →
      lookupD m k = lookupD d k := by
  induction prefs with
  | nil =>
    intro d m h _
    rw [List.foldlM_nil] at h
    cases h
    rfl
  | cons e rest ih =>
    intro d m h hk
    rw [List.foldlM_cons] at h
    cases hp : prefDesc e with
    | error err =>
      rw [show applyPref d e = Except.error err by
        simp [applyPref, hp, except_bind_error]] at h
      rw [except_bind_error] at h
      cases h
    | ok kv =>
      rw [show applyPref d e = Except.ok (upsert d kv.1 kv.2) by
        simp [applyPref, hp, except_bind_ok]] at h
      rw [except_bind_ok] at h
      have hrest : ∀ e' ∈ rest, ∀ kv', prefDesc e' = Except.ok kv' →
          kv'.1 ≠ k := fun e' he' => hk e' (List.mem_cons_of_mem e he')
      rw [ih _ m h hrest, lookupD_upsert]
      have : kv.1 ≠ k := hk e (List.mem_cons_self e rest) kv hp
      simp [Ne.symm this]

/-- After a successful preference fold, the key of the list's final record
maps to that record's descriptor (last write wins). -/
theorem foldlM_applyPref_last (ps : List String) (e : String)
    (d m : List (String × VtParam)) (kv : String × VtParam)
    (h : (ps ++ [e]).foldlM applyPref d = Except.ok m)
    (he : prefDesc e = Except.ok kv) :
    lookupD m kv.1 = some kv.2 := by
  rw [List.foldlM_append] at h
  cases hd1 : ps.foldlM applyPref d with
  | error err => rw [hd1, except_bind_error] at h; cases h
  | ok d1 =>
    rw [hd1, except_bind_ok] at h
    rw [List.foldlM_cons] at h
    rw [show applyPref d1 e = Except.ok (upsert d1 kv.1 kv.2) by
      simp [applyPref, he, except_bind_ok]] at h
    rw [except_bind_ok, List.foldlM_nil] at h
    cases h
    rw [lookupD_upsert]
    simp

/-! ### Lemmas about the metadata fold of `get_nvt_metadata` -/

theorem metaStep_eq (oid : String) (custom : List (String × String))
    (p : String × String) :
    metaStep oid custom p = dictUpdate custom (entryOf oid p) := by
  unfold metaStep entryOf
  by_cases h1 : p.1 ∉ ["cve", "bid", "xref", "tag"] ∧ p.2 ≠ ""
  · rw [if_pos h1, if_pos h1]
    rfl
  · rw [if_neg h1, if_neg h1]
    by_cases h2 : p.1 = "tag"
    · rw [if_pos h2, if_pos h2]
    · rw [if_neg h2, if_neg h2]
      rfl

theorem foldl_metaStep (oid : String) (l : List (String × String))
    (d : List (String × String)) :
    l.foldl (metaStep oid) d = dictUpdate d (l.flatMap (entryOf oid)) := by
  induction l generalizing d with
  | nil => simp [dictUpdate]
  | cons p rest ih =>
    rw [List.foldl_cons, metaStep_eq, ih, List.flatMap_cons]
    unfold dictUpdate
    rw [List.foldl_append]

/-- Lookup in the metadata result is lookup of the last matching entry in
the flattened per-field contribution list. -/
theorem get_nvt_metadata_lookup (oid : String) (r : List String)
    (hr : r.length ≠ 0) (k : String) :
    (get_nvt_metadata oid (some r)).map (fun m => lookupD m k) =
      some (lastVal ((subelem.zip r).flatMap (entryOf oid)) k) := by
  unfold get_nvt_metadata
  simp only [hr, if_false]
  rw [foldl_metaStep]
  show some (lookupD (dictUpdate []
    ((subelem.zip r).flatMap (entryOf oid))) k) = _
  rw [lookupD_dictUpdate]
  simp [lookupD, List.find?]

/-! ### Claim theorems -/

/-- C1: `_parse_metadata_tags` is total (its Lean model is a function, the
`except ValueError` in the source is the only possible exception and is
handled): it splits on `|`, splits each segment on the first `=` only (the
key holds no `=`, the value keeps any further `=` whole), returns exactly
the dict of the well-formed pairs, records one diagnostic naming the
segment and the owning OID per `=`-free segment, and yields the empty dict
when no segment is well-formed. -/
theorem c1_parse_metadata_tags (tags_str oid : String) :
    (_parse_metadata_tags tags_str oid).1 = specTagDict tags_str ∧
    (_parse_metadata_tags tags_str oid).2 = specTagDiagnostics tags_str oid ∧
    (∀ k v : String, k.toList.contains '=' = false →
      splitFirstEq (k ++ "=" ++ v) = some (k, v)) ∧
    (∀ seg : String,
      splitFirstEq seg = none ↔ seg.toList.contains '=' = false) ∧
    ((∀ seg ∈ pySplit tags_str "|", seg.toList.contains '=' = false) →
      (_parse_metadata_tags tags_str oid).1 = []) := by
  refine ⟨(parse_tags_eq_spec tags_str oid).symm ▸ rfl,
    (parse_tags_eq_spec tags_str oid).symm ▸ rfl,
    splitFirstEq_first, splitFirstEq_eq_none_iff, ?_⟩
  intro hall
  rw [parse_tags_eq_spec]
  show specTagDict tags_str = []
  unfold specTagDict
  have hnil : ∀ (l : List String),
      (∀ seg ∈ l, seg.toList.contains '=' = false) →
      l.filterMap splitFirstEq = [] := by
    intro l
    induction l with
    | nil => intro _; rfl
    | cons seg rest ih =>
      intro hl
      rw [List.filterMap_cons, (splitFirstEq_eq_none_iff seg).mpr
        (hl seg (List.mem_cons_self seg rest))]
      exact ih (fun s hs => hl s (List.mem_cons_of_mem seg hs))
  rw [hnil (pySplit tags_str "|") hall]
  rfl

theorem c1_parse_metadata_tags_witness :
    _parse_metadata_tags "tag1=value1|foo=bar" "1.2.3" =
      ([("tag1", "value1"), ("foo", "bar")], []) ∧
    _parse_metadata_tags "tag1" "1.2.3" = ([], [("tag1", "1.2.3")]) ∧
    splitFirstEq ("cvss" ++ "=" ++ "AV:N=x") = some ("cvss", "AV:N=x") :=
  ⟨by decide, by decide,
    (c1_parse_metadata_tags "x" "y").2.2.1 "cvss" "AV:N=x" (by decide)⟩

/-- C2 (code bug): on a preference record with fewer than 4 `|||`-segments
and a non-empty type segment, `get_nvt_params` raises `IndexError` at
`elem[3]` instead of producing a descriptor with an empty default (the
behaviour the spec and the repository's own test `test_get_nvt_params`
with `prefs3 = ['1|||dns-fuzz.timelimit|||entry']` expect). -/
theorem c2_short_pref_raises :
    pySplit "1|||dns-fuzz.timelimit|||entry" "|||" =
      ["1", "dns-fuzz.timelimit", "entry"] ∧
    prefDesc "1|||dns-fuzz.timelimit|||entry" =
      Except.error PyErr.indexError ∧
    get_nvt_params (some ["1|||dns-fuzz.timelimit|||entry"]) (some "0") =
      Except.error PyErr.indexError ∧
    get_nvt_params (some ["1|||dns-fuzz.timelimit|||entry"]) (some "10") =
      Except.error PyErr.indexError :=
  ⟨by decide, rfl, rfl, rfl⟩

/-- C3: with a positive timeout `get_nvt_params` synthesizes the entry
keyed `"0"` (id `0`, type `entry`, name `timeout`, description
`Script Timeout`, default = the timeout string); with a non-positive
timeout no such entry exists (when no preference supplies id `"0"`);
preference entries are inserted in list order under their own id, and the
final entry with a colliding id wins — including a preference with id
`"0"` overwriting the synthesized timeout entry. -/
theorem c3_timeout_and_order (t : String) (n : Int) (prefs : List String)
    (m : List (String × VtParam)) :
    (pyInt t = some n → 0 < n →
      get_nvt_params (some prefs) (some t) = Except.ok (some m) →
      (∀ e ∈ prefs, ∀ kv, prefDesc e = Except.ok kv → kv.1 ≠ "0") →
      lookupD m "0" = some (timeoutParam t)) ∧
    (pyInt t = some n → ¬0 < n →
      get_nvt_params (some prefs) (some t) = Except.ok (some m) →
      (∀ e ∈ prefs, ∀ kv, prefDesc e = Except.ok kv → kv.1 ≠ "0") →
      lookupD m "0" = none) ∧
    (∀ (ps : List String) (e : String) (kv : String × VtParam),
      get_nvt_params (some (ps ++ [e])) (some t) = Except.ok (some m) →
      prefDesc e = Except.ok kv →
      lookupD m kv.1 = some kv.2) ∧
    get_nvt_params (some ["1|||dns-fuzz.timelimit|||entry|||default"])
        (some "10") =
      Except.ok (some [("0", timeoutParam "10"),
        ("1", ⟨"1", "entry", "dns-fuzz.timelimit", "Description",
          "default"⟩)]) ∧
    get_nvt_params (some ["0|||custom|||entry|||x"]) (some "10") =
      Except.ok (some [("0", ⟨"0", "entry", "custom", "Description", "x"⟩)]) := by
  have hextract : ∀ (l : List String) (n' : Int),
      pyInt t = some n' →
      get_nvt_params (some l) (some t) = Except.ok (some m) →
      l.foldlM applyPref
        (if 0 < n' then [("0", timeoutParam t)] else []) = Except.ok m := by
    intro l n' ht hg
    simp only [get_nvt_params, ht, Option.getD_some] at hg
    cases hf : l.foldlM applyPref
        (if 0 < n' then [("0", timeoutParam t)] else []) with
    | error e =>
      rw [hf, except_bind_error] at hg
      cases hg
    | ok m' =>
      rw [hf, except_bind_ok] at hg
      cases hg
      rfl
  refine ⟨?_, ?_, ?_, rfl, rfl⟩
  · intro ht hn hg hk
    have hf := hextract prefs n ht hg
    rw [if_pos hn] at hf
    rw [foldlM_applyPref_lookup "0" prefs _ m hf hk]
    rfl
  · intro ht hn hg hk
    have hf := hextract prefs n ht hg
    rw [if_neg hn] at hf
    rw [foldlM_applyPref_lookup "0" prefs _ m hf hk]
    rfl
  · intro ps e kv hg he
    cases ht : pyInt t with
    | none =>
      simp only [get_nvt_params, ht] at hg
      cases hg
    | some n' =>
      exact foldlM_applyPref_last ps e _ m kv (hextract (ps ++ [e]) n' ht hg) he

theorem c3_timeout_and_order_witness :
    lookupD [("0", timeoutParam "10"),
      ("1", (⟨"1", "entry", "dns-fuzz.timelimit", "Description",
        "default"⟩ : VtParam))] "0" = some (timeoutParam "10") :=
  (c3_timeout_and_order "10" 10 ["1|||dns-fuzz.timelimit|||entry|||default"]
    [("0", timeoutParam "10"),
      ("1", ⟨"1", "entry", "dns-fuzz.timelimit", "Description",
        "default"⟩)]).1 rfl (by decide) rfl
    (by
      intro e he kv hkv
      rw [List.mem_singleton] at he
      subst he
      rw [show prefDesc "1|||dns-fuzz.timelimit|||entry|||default" =
        Except.ok ("1", ⟨"1", "entry", "dns-fuzz.timelimit", "Description",
          "default"⟩) from rfl] at hkv
      cases hkv
      decide)

/-- C6: with a 3-element reference read, `get_nvt_refs` maps `cve`, `bid`
and `xref` to the positional fields split on the literal `", "`; an empty
field yields `[""]`, never `[]`. -/
theorem c6_get_nvt_refs (a b c : String) :
    get_nvt_refs (some [a, b, c]) =
      some [("cve", pySplit a ", "), ("bid", pySplit b ", "),
        ("xref", pySplit c ", ")] ∧
    pySplit "" ", " = [""] ∧
    get_nvt_refs (some ["", "", "URL:http://example/"]) =
      some [("cve", [""]), ("bid", [""]),
        ("xref", ["URL:http://example/"])] :=
  ⟨rfl, by decide, by decide⟩

/-- C7: both decoders signal an unknown OID by the absent value exactly
when the ranged read yields no list or an empty list, never by an
exception (they are total functions); a present record whose fields are
all empty yields an empty map, not the absent value. -/
theorem c7_absent_iff (oid : String) (resp : Option (List String)) :
    (get_nvt_metadata oid resp = none ↔ resp = none ∨ resp = some []) ∧
    (get_nvt_refs resp = none ↔ resp = none ∨ resp = some []) ∧
    get_nvt_metadata oid
      (some ["", "", "", "", "", "", "", "", "", "", "", "", "", "", ""]) =
      some [] := by
  refine ⟨?_, ?_, ?_⟩
  · cases resp with
    | none => simp [get_nvt_metadata]
    | some r =>
      cases r with
      | nil => simp [get_nvt_metadata]
      | cons x xs => simp [get_nvt_metadata]
  · cases resp with
    | none => simp [get_nvt_refs]
    | some r =>
      cases r with
      | nil => simp [get_nvt_refs]
      | cons x xs => simp [get_nvt_refs]
  · rfl

/-- C10: `get_nvt_params` returns the absent value only when the timeout
read is `None`; a present timeout string that is not an integer literal
(such as the empty string) makes the unguarded `int(timeout)` raise
`ValueError`. -/
theorem c10_timeout_absence (prefs : Option (List String)) (t : String) :
    get_nvt_params prefs none = Except.ok none ∧
    (∀ r, get_nvt_params prefs (some t) = Except.ok r → r ≠ none) ∧
    (pyInt t = none →
      get_nvt_params prefs (some t) = Except.error PyErr.valueError) ∧
    pyInt "" = none := by
  refine ⟨rfl, ?_, ?_, rfl⟩
  · intro r hr
    cases ht : pyInt t with
    | none =>
      simp only [get_nvt_params, ht] at hr
      cases hr
    | some n =>
      simp only [get_nvt_params, ht] at hr
      cases hf : (prefs.getD []).foldlM applyPref
          (if 0 < n then [("0", timeoutParam t)] else []) with
      | error e =>
        rw [hf, except_bind_error] at hr
        cases hr
      | ok m =>
        rw [hf, except_bind_ok] at hr
        cases hr
        simp
  · intro ht
    simp only [get_nvt_params, ht]

theorem c10_timeout_absence_witness :
    get_nvt_params none (some "") = Except.error PyErr.valueError :=
  (c10_timeout_absence none "").2.2.1 rfl

/-- C9: the second public tag-decoding path `get_nvt_tag` raises
`ValueError` as soon as one `|`-segment has no `=` (the unguarded
`dict([item.split('=', 1) ...])`), while `_parse_metadata_tags` on the same
input still returns the dict of well-formed pairs. -/
theorem c9_get_nvt_tag_raises (tag oid : String)
    (h : ∃ seg ∈ pySplit tag "|", seg.toList.contains '=' = false) :
    get_nvt_tag tag = Except.error PyErr.valueError ∧
    (_parse_metadata_tags tag oid).1 = specTagDict tag := by
  refine ⟨?_, (parse_tags_eq_spec tag oid).symm ▸ rfl⟩
  obtain ⟨seg, hm, hno⟩ := h
  have hsplit : pySplit seg "=" = [seg] := pySplit_eq_no_sep seg hno
  have h1 : pySplit1 seg "=" = [seg] := by
    unfold pySplit1
    rw [hsplit]
  have hfalse : (((pySplit tag "|").map (fun item => pySplit1 item "=")).all
      (fun p => p.length == 2)) = false := by
    cases hall : (((pySplit tag "|").map (fun item => pySplit1 item "=")).all
        (fun p => p.length == 2)) with
    | false => rfl
    | true =>
      have h2 := List.all_eq_true.mp hall (pySplit1 seg "=")
        (List.mem_map_of_mem (fun item => pySplit1 item "=") hm)
      rw [h1] at h2
      simp at h2
  simp only [get_nvt_tag]
  rw [hfalse]
  simp

theorem c9_get_nvt_tag_raises_witness :
    get_nvt_tag "tag1" = Except.error PyErr.valueError :=
  (c9_get_nvt_tag_raises "tag1" "1.2.3" (by decide)).1

/-! ### Lemmas about the cache locator -/

theorem supportedMatch_iff (inst : List Nat) (s : String) :
    supportedMatch inst s = true ↔
      ∃ sup, parseVersionNums s = some sup ∧ majorOf inst = majorOf sup ∧
        verGe inst sup = true := by
  unfold supportedMatch
  cases hp : parseVersionNums s with
  | none =>
    simp only [Bool.false_eq_true, false_iff]
    rintro ⟨sup, hsup, _⟩
    cases hsup
  | some sup =>
    rw [Bool.and_eq_true]
    constructor
    · rintro ⟨hge, hmaj⟩
      exact ⟨sup, rfl, by simpa using hmaj, hge⟩
    · rintro ⟨sup', hsup', hmaj, hge⟩
      rw [Option.some_inj] at hsup'
      subst hsup'
      exact ⟨hge, by simpa using hmaj⟩

theorem set_name_ok_iff (vs : String) (inst : List Nat)
    (hparse : parseVersionNums vs = some inst) :
    _set_nvti_cache_name (some vs) = Except.ok ("nvticache" ++ vs) ↔
      specCompatible inst := by
  unfold specCompatible
  simp only [_set_nvti_cache_name, hparse]
  by_cases hc : SUPPORTED_NVTICACHE_VERSIONS.any (supportedMatch inst) = true
  · rw [if_pos hc]
    simp only [true_iff]
    obtain ⟨s, hs, hm⟩ := List.any_eq_true.mp hc
    exact ⟨s, hs, (supportedMatch_iff inst s).mp hm⟩
  · rw [if_neg hc]
    constructor
    · intro h
      cases h
    · rintro ⟨s, hs, hrest⟩
      exact absurd (List.any_eq_true.mpr
        ⟨s, hs, (supportedMatch_iff inst s).mpr hrest⟩) hc

theorem set_name_ok_shape (probe : Option String) (nm : String)
    (h : _set_nvti_cache_name probe = Except.ok nm) :
    ∃ vs, probe = some vs ∧ nm = "nvticache" ++ vs := by
  cases probe with
  | none => cases h
  | some vs =>
    refine ⟨vs, rfl, ?_⟩
    cases hp : parseVersionNums vs with
    | none =>
      simp only [_set_nvti_cache_name, hp] at h
      cases h
    | some inst =>
      simp only [_set_nvti_cache_name, hp] at h
      by_cases hc : SUPPORTED_NVTICACHE_VERSIONS.any (supportedMatch inst) =
          true
      · rw [if_pos hc] at h
        cases h
        rfl
      · rw [if_neg hc] at h
        cases h

theorem nvticache_prefixed_ne_empty (vs : String) :
    "nvticache" ++ vs ≠ "" := by
  intro hemp
  have h2 := congrArg String.data hemp
  rw [String.data_append] at h2
  rw [show ("nvticache" : String).data =
    ['n', 'v', 't', 'i', 'c', 'a', 'c', 'h', 'e'] from rfl] at h2
  rw [show ("" : String).data = [] from rfl] at h2
  simp at h2

/-! ### Claim theorems for the cache locator -/

/-- C4: with a parseable probed version, `_set_nvti_cache_name` succeeds
(deriving the name `nvticache` + version string) exactly when some
supported entry has the same major component and the installed version is
greater or equal under release-tuple (not string) comparison; probe
failure and incompatibility raise the configuration error and leave the
cache name unset; `20.4.1` against `{20.4}` is compatible while `21.0`
and `20.3` raise. -/
theorem c4_version_guard (vs : String) (inst : List Nat) (st : Option String)
    (hparse : parseVersionNums vs = some inst) :
    (_set_nvti_cache_name (some vs) = Except.ok ("nvticache" ++ vs) ↔
      specCompatible inst) ∧
    (¬specCompatible inst →
      _set_nvti_cache_name (some vs) = Except.error OspdOpenvasError.err) ∧
    _set_nvti_cache_name none = Except.error OspdOpenvasError.err ∧
    (∀ e, _set_nvti_cache_name (some vs) = Except.error e →
      (_get_nvti_cache_name (some vs) st).st = st) ∧
    _set_nvti_cache_name (some "20.4.1") = Except.ok "nvticache20.4.1" ∧
    _set_nvti_cache_name (some "21.0") = Except.error OspdOpenvasError.err ∧
    _set_nvti_cache_name (some "20.3") = Except.error OspdOpenvasError.err := by
  refine ⟨set_name_ok_iff vs inst hparse, ?_, rfl, ?_, rfl, rfl, rfl⟩
  · intro hnc
    cases hres : _set_nvti_cache_name (some vs) with
    | error e => cases e; rfl
    | ok nm =>
      obtain ⟨vs', hvs', hnm⟩ := set_name_ok_shape (some vs) nm hres
      rw [Option.some_inj] at hvs'
      subst hvs'
      subst hnm
      exact absurd ((set_name_ok_iff vs inst hparse).mp hres) hnc
  · intro e herr
    unfold _get_nvti_cache_name
    by_cases hst : st.getD "" = ""
    · rw [if_pos hst, herr]
    · rw [if_neg hst]

theorem c4_version_guard_witness :
    _set_nvti_cache_name (some "20.4.1") = Except.ok "nvticache20.4.1" :=
  (c4_version_guard "20.4.1" [20, 4, 1] none rfl).2.2.2.2.1

/-- C8 (counterexample to handle caching): after a first successful
resolution the cache name is stored, and the second `get_redis_context`
call indeed skips the version probe — but it performs the `db_find`
database lookup again (`dbFinds = 1`, not `0`), so the handle itself is
not cached. -/
theorem c8_handle_lookup_repeated :
    (get_redis_context (fun x => x) (some "20.4.1") none).st =
      some "nvticache20.4.1" ∧
    (get_redis_context (fun x => x) (some "20.4.1") none).result =
      Except.ok "nvticache20.4.1" ∧
    (get_redis_context (fun x => x) (some "20.4.1")
      (some "nvticache20.4.1")).probes = 0 ∧
    (get_redis_context (fun x => x) (some "20.4.1")
      (some "nvticache20.4.1")).dbFinds = 1 :=
  ⟨rfl, rfl, rfl, rfl⟩

/-- The name resolution of a non-falsy stored name is a no-op returning
the stored name, without probing. -/
theorem get_name_resolved (probe : Option String) (n : String) (h : n ≠ "") :
    _get_nvti_cache_name probe (some n) = ⟨some n, Except.ok n, 0⟩ := by
  unfold _get_nvti_cache_name
  rw [if_neg (by simpa using h)]
  rfl

/-- A successful name resolution stores exactly the returned name, and that
name is non-empty. -/
theorem get_name_result_ok (probe st : Option String) (n : String)
    (h : (_get_nvti_cache_name probe st).result = Except.ok n) :
    (_get_nvti_cache_name probe st).st = some n ∧ n ≠ "" := by
  unfold _get_nvti_cache_name at h ⊢
  by_cases hst : st.getD "" = ""
  · rw [if_pos hst] at h ⊢
    cases hset : _set_nvti_cache_name probe with
    | error e =>
      rw [hset] at h
      have h' : Except.error e = Except.ok n := h
      cases h'
    | ok nm =>
      rw [hset] at h
      have h' : Except.ok nm = Except.ok n := h
      cases h'
      obtain ⟨vs, _, hnm⟩ := set_name_ok_shape probe _ hset
      exact ⟨rfl, hnm ▸ nvticache_prefixed_ne_empty vs⟩
  · rw [if_neg hst] at h ⊢
    have h' : Except.ok (st.getD "") = Except.ok n := h
    cases h'
    cases st with
    | none => exact absurd rfl hst
    | some x => exact ⟨rfl, hst⟩

theorem get_redis_context_ok (dbF : String → String)
    (probe st : Option String) (n : String)
    (h : (_get_nvti_cache_name probe st).result = Except.ok n) :
    get_redis_context dbF probe st =
      ⟨(_get_nvti_cache_name probe st).st, Except.ok (dbF n),
        (_get_nvti_cache_name probe st).probes, 1⟩ := by
  simp only [get_redis_context]
  rw [h]

theorem get_redis_context_result (dbF : String → String)
    (probe st : Option String) (v : String)
    (h : (get_redis_context dbF probe st).result = Except.ok v) :
    ∃ n, (_get_nvti_cache_name probe st).result = Except.ok n ∧ v = dbF n := by
  simp only [get_redis_context] at h
  cases hr : (_get_nvti_cache_name probe st).result with
  | error e =>
    rw [hr] at h
    have h' : Except.error e = Except.ok v := h
    cases h'
  | ok n =>
    rw [hr] at h
    have h' : Except.ok (dbF n) = Except.ok v := h
    cases h'
    exact ⟨n, rfl, rfl⟩

/-- C8 (amended): after a first successful `get_redis_context`, a second
call performs no version probe, returns the identical handle and leaves
the stored name unchanged — but it does perform one `db_find` database
lookup per call. -/
theorem c8_name_cached_handle_refetched (dbF : String → String)
    (probe st0 : Option String)
    (hok : ∃ v, (get_redis_context dbF probe st0).result = Except.ok v) :
    (get_redis_context dbF probe
        ((get_redis_context dbF probe st0).st)).result =
      (get_redis_context dbF probe st0).result ∧
    (get_redis_context dbF probe ((get_redis_context dbF probe st0).st)).st =
      (get_redis_context dbF probe st0).st ∧
    (get_redis_context dbF probe
        ((get_redis_context dbF probe st0).st)).probes = 0 ∧
    (get_redis_context dbF probe
        ((get_redis_context dbF probe st0).st)).dbFinds = 1 := by
  obtain ⟨v, hv⟩ := hok
  obtain ⟨n, hn, hvn⟩ := get_redis_context_result dbF probe st0 v hv
  obtain ⟨hst1, hne⟩ := get_name_result_ok probe st0 n hn
  have hr1 := get_redis_context_ok dbF probe st0 n hn
  have hn2 := get_name_resolved probe n hne
  have hr2 := get_redis_context_ok dbF probe (some n)
    n (by rw [hn2])
  rw [hr1, hst1, hr2, hn2]
  exact ⟨rfl, rfl, rfl, rfl⟩

theorem c8_name_cached_handle_refetched_witness :
    (get_redis_context (fun x => x) (some "20.4.1")
        ((get_redis_context (fun x => x) (some "20.4.1") none).st)).probes =
      0 :=
  (c8_name_cached_handle_refetched (fun x => x) (some "20.4.1") none
    ⟨"nvticache20.4.1", rfl⟩).2.2.1

/-- C5 (counterexample): the tag position is expanded through the tag
grammar and its pairs are merged at top level, so a tag string `cve=x`
makes the metadata map contain the key `cve` — the claim "the map contains
no `cve`, `bid` or `xref` keys" is false as stated. -/
theorem c5_tag_injects_reserved_key :
    (get_nvt_metadata "1.2.3"
        (some ["", "", "", "", "", "", "", "cve=x", "", "", "", "", "", "",
          ""])).map (fun m => lookupD m "cve") = some (some "x") := by
  decide

/-- C5 (amended): for a full 15-field record whose tag expansion introduces
none of the schema field names, the metadata map contains no `cve`, `bid`,
`xref` or `tag` key, contains every pair of the tag expansion at top level,
and contains each other schema field exactly when its positional value is
non-empty. -/
theorem c5_metadata_decode
    (oid f0 f1 f2 f3 f4 f5 f6 f7 f8 f9 f10 f11 f12 f13 f14 : String)
    (htags : ∀ q ∈ (_parse_metadata_tags f7 oid).1, q.1 ∉ subelem) :
    ∃ m, get_nvt_metadata oid (some [f0, f1, f2, f3, f4, f5, f6, f7, f8, f9,
        f10, f11, f12, f13, f14]) = some m ∧
      lookupD m "cve" = none ∧
      lookupD m "bid" = none ∧
      lookupD m "xref" = none ∧
      lookupD m "tag" = none ∧
      (∀ k v, lookupD (_parse_metadata_tags f7 oid).1 k = some v →
        lookupD m k = some v) ∧
      lookupD m "filename" = (if f0 = "" then none else some f0) ∧
      lookupD m "required_keys" = (if f1 = "" then none else some f1) ∧
      lookupD m "mandatory_keys" = (if f2 = "" then none else some f2) ∧
      lookupD m "excluded_keys" = (if f3 = "" then none else some f3) ∧
      lookupD m "required_udp_ports" = (if f4 = "" then none else some f4) ∧
      lookupD m "required_ports" = (if f5 = "" then none else some f5) ∧
      lookupD m "dependencies" = (if f6 = "" then none else some f6) ∧
      lookupD m "category" = (if f11 = "" then none else some f11) ∧
      lookupD m "timeout" = (if f12 = "" then none else some f12) ∧
      lookupD m "family" = (if f13 = "" then none else some f13) ∧
      lookupD m "name" = (if f14 = "" then none else some f14) := by
  have htagnone : ∀ k2, k2 ∈ subelem →
      lastVal (_parse_metadata_tags f7 oid).1 k2 = none := by
    intro k2 hk2
    apply lastVal_eq_none
    intro q hq hqk
    exact htags q hq (hqk ▸ hk2)
  have hlook : ∀ k,
      lookupD ((subelem.zip [f0, f1, f2, f3, f4, f5, f6, f7, f8, f9, f10,
          f11, f12, f13, f14]).foldl (metaStep oid) []) k =
        lastVal ((subelem.zip [f0, f1, f2, f3, f4, f5, f6, f7, f8, f9, f10,
          f11, f12, f13, f14]).flatMap (entryOf oid)) k := by
    intro k
    rw [foldl_metaStep, lookupD_dictUpdate]
    simp [lookupD, List.find?]
  refine ⟨(subelem.zip [f0, f1, f2, f3, f4, f5, f6, f7, f8, f9, f10, f11,
    f12, f13, f14]).foldl (metaStep oid) [], rfl,
    ?s1, ?s2, ?s3, ?s4, ?tp, ?g0, ?g1, ?g2, ?g3, ?g4, ?g5, ?g6, ?g11,
    ?g12, ?g13, ?g14⟩
  case tp =>
    intro k v hkv
    have hmem := mem_of_lookupD_some _ k v hkv
    have hkni : k ∉ subelem := htags (k, v) hmem
    have hks : ∀ a, a ∈ subelem → a ≠ k := fun a ha hak => hkni (hak ▸ ha)
    have hnodup : (keysOf (_parse_metadata_tags f7 oid).1).Nodup := by
      rw [parse_tags_eq_spec]
      exact keysOf_buildDict_nodup _
    have htagval : lastVal (_parse_metadata_tags f7 oid).1 k = some v := by
      rw [lastVal_eq_lookupD _ hnodup]
      exact hkv
    rw [hlook]
    simp +decide only [subelem, entryOf, List.zip_cons_cons,
      List.zip_nil_left, List.flatMap_cons, List.flatMap_nil, lastVal_append,
      lastVal_nil, Option.or_none, Option.none_or, true_and, false_and,
      if_false, if_true]
    rw [htagval]
    simp only [lastVal_ite, lastVal_singleton]
    rw [if_neg (hks "category" (by decide)),
      if_neg (hks "timeout" (by decide)),
      if_neg (hks "family" (by decide)),
      if_neg (hks "name" (by decide))]
    simp
  all_goals
    rw [hlook]
    simp +decide only [subelem, entryOf, List.zip_cons_cons,
      List.zip_nil_left, List.flatMap_cons, List.flatMap_nil, lastVal_append,
      lastVal_nil, lastVal_ite, lastVal_singleton, htagnone,
      Option.or_none, Option.none_or, true_and, false_and, if_false, if_true,
      ite_self]
  case s1 => exact htagnone _ (by decide)
  case s2 => exact htagnone _ (by decide)
  case s3 => exact htagnone _ (by decide)
  case s4 => exact htagnone _ (by decide)
  all_goals simp [htagnone, subelem]

theorem c5_metadata_decode_witness :
    ∃ m, get_nvt_metadata "1.2.3" (some ["mantis_detect.nasl", "", "", "",
        "", "", "", "cvss_base_vector=AV:N", "", "", "", "3", "", "",
        "Mantis Detection"]) = some m ∧
      lookupD m "cve" = none ∧
      lookupD m "filename" =
        (if "mantis_detect.nasl" = "" then none
          else some "mantis_detect.nasl") := by
  obtain ⟨m, hm, hcve, _, _, _, _, hfile, _⟩ :=
    c5_metadata_decode "1.2.3" "mantis_detect.nasl" "" "" "" "" "" ""
      "cvss_base_vector=AV:N" "" "" "" "3" "" "" "Mantis Detection"
      (by decide)
  exact ⟨m, hm, hcve, hfile⟩

end OspdOpenvas
